import Mathlib

/-!
Verification of the SLED decoding pilot (`sidecars/sled/sled_decode.py`).

We embed the numeric code over `ℚ` (exact arithmetic standing in for the
float tensors), lists standing in for 1-d tensors and lists of lists for
stacked 2-d tensors.  External effects are made explicit: the `.npz`
artifact on disk becomes an optional record, a raised Python exception
crossing a function boundary becomes `Except.error`, and the softmax
exponential is an abstract positive function parameter `e`.
-/

namespace SledDecode

/-- Embedding of `_select_layer_indices(num_layers, layers, k)`:
`"all"` yields `range(num_layers)`; any other strategy string takes the
`last_k` path, clamping `k` to `max(1, min(k, num_layers))` and returning
`range(num_layers - k, num_layers)` as a list. -/
def select_layer_indices (num_layers : ℕ) (layers : String) (k : ℤ) : List ℤ :=
  if layers = "all" then (List.range num_layers).map Int.ofNat
  else
    let kc : ℤ := max 1 (min k (num_layers : ℤ))
    (List.range kc.toNat).map (fun i : ℕ => (num_layers : ℤ) - kc + (i : ℤ))

/-- A parsed `.npz` artifact as `_load_learned_weights` reads it: the two
arrays the loader looks at, each possibly absent from the archive. -/
structure NpzFile where
  layer_weights : Option (List ℚ)
  chosen : Option (List ℤ)
deriving DecidableEq

/-- The stored-versus-requested layer check of `_load_learned_weights`
(lines 92-101): when both the requested `chosen` and the stored `chosen`
arrays are present, the artifact is flagged when the stored list's length
differs from `n` or any corresponding entries differ; with either side
absent the check is skipped. -/
def chosen_mismatch (n : ℕ) (requested saved : Option (List ℤ)) : Bool :=
  match requested, saved with
  | some c, some s => decide (s.length ≠ n) || (s.zip c).any (fun p => p.1 != p.2)
  | _, _ => false

/-- The renormalization step of `_load_learned_weights` (lines 102-106):
if `|w.sum| > 0` divide through by the sum, otherwise substitute the
uniform vector `1/n`. -/
def renorm_loaded (n : ℕ) (w : List ℚ) : List ℚ :=
  if 0 < |w.sum| then w.map (fun x => x / w.sum)
  else List.replicate n ((1 : ℚ) / (n : ℚ))

/-- Embedding of `_load_learned_weights(n, weights_path, chosen)`.  The
`file` argument is `none` when the path does not exist or `np.load`
fails (the body's try/except turns any such failure into `None`);
`data.layer_weights` is `none` when the key is absent.  A weight array
whose size is not `n`, or a stored `chosen` array that differs from a
requested one, is rejected; an accepted array is renormalized. -/
def load_learned_weights (n : ℕ) (file : Option NpzFile)
    (chosen : Option (List ℤ)) : Option (List ℚ) :=
  match file with
  | none => none
  | some data =>
    match data.layer_weights with
    | none => none
    | some w =>
      if w.length = n then
        if chosen_mismatch n chosen data.chosen then none
        else some (renorm_loaded n w)
      else none

/-- Elementwise scaling `c * v` of a logit vector. -/
def vec_scale (c : ℚ) (v : List ℚ) : List ℚ := v.map (fun x => c * x)

/-- Elementwise sum of two logit vectors of a common length. -/
def vec_add (a b : List ℚ) : List ℚ := List.zipWith (fun x y => x + y) a b

/-- `(w * L).sum(dim=0)` of `_combine_layer_logits` (lines 194-196):
scale each layer's logit vector by its weight and sum elementwise, the
vectors having length `m`. -/
def weighted_sum (w : List ℚ) (ls : List (List ℚ)) (m : ℕ) : List ℚ :=
  ((w.zip ls).map (fun p => vec_scale p.1 p.2)).foldr vec_add
    (List.replicate m 0)

/-- `torch.ones(n) / n`. -/
def uniform_weights (n : ℕ) : List ℚ := List.replicate n ((1 : ℚ) / (n : ℚ))

/-- Softmax over `ℚ` with the exponential abstracted as `e`. -/
def softmax_q (e : ℚ → ℚ) (xs : List ℚ) : List ℚ :=
  let es := xs.map e
  es.map (fun x => x / es.sum)

/-- `_depth_weights(n)`: softmax over the depth scores `1..n`. -/
def depth_weights (e : ℚ → ℚ) (n : ℕ) : List ℚ :=
  softmax_q e ((List.range n).map (fun i : ℕ => (i : ℚ) + 1))

/-- Embedding of `_combine_layer_logits(layer_logits, weighting)`:
single-layer passthrough before any policy dispatch; `"depth_softmax"`
uses the depth weights and every other policy string the uniform ones
(a `"learned"` request reaching this function means the caller could
not load weights, and its `w is None` branch falls back to uniform);
an empty stack makes `torch.stack` raise, modeled as `none`. -/
def combine_layer_logits (e : ℚ → ℚ) (layer_logits : List (List ℚ))
    (weighting : String) : Option (List ℚ) :=
  match layer_logits with
  | [] => none
  | [l] => some l
  | ls =>
    let n := ls.length
    let w := if weighting = "depth_softmax" then depth_weights e n
             else uniform_weights n
    some (weighted_sum w ls ((ls.headD []).length))

/-- The temperature scaling of `_nucleus_sample` (line 49):
`logits / max(1e-6, temperature)`. -/
def nucleus_scaled_logits (logits : List ℚ) (temperature : ℚ) : List ℚ :=
  logits.map (fun x => x / max (1 / 1000000) temperature)

/-- `torch.cumsum`: entry `i` is the sum of the first `i + 1` entries,
written as the usual scan so that proofs can recurse on the list. -/
def cumsum : List ℚ → List ℚ
  | [] => []
  | x :: xs => x :: (cumsum xs).map (fun c => x + c)

/-- `torch.where(cumsum > top_p)[0][0]`: position of the first
cumulative entry exceeding `top_p`, if any. -/
def first_crossing (top_p : ℚ) : List ℚ → Option ℕ
  | [] => none
  | c :: rest =>
    if top_p < c then some 0
    else (first_crossing top_p rest).map (fun i => i + 1)

/-- Number of sorted tokens `_nucleus_sample` keeps (lines 54-63):
through the first cumulative-probability crossing of `top_p`, or the
whole sorted distribution when no entry crosses. -/
def nucleus_keep_len (probs : List ℚ) (top_p : ℚ) : ℕ :=
  match first_crossing top_p (cumsum probs) with
  | some last => last + 1
  | none => probs.length

/-- `keep / keep.sum()` (line 64). -/
def renormalize (xs : List ℚ) : List ℚ := xs.map (fun x => x / xs.sum)

/-- The token id `_nucleus_sample` returns for `temperature > 0`, given
the descending-sorted probabilities `probs` with their original indices
`idx` (the two outputs of `torch.sort`); `choice` is the row that
`torch.multinomial` draws from the kept renormalized distribution. -/
def nucleus_sample (probs : List ℚ) (idx : List ℕ) (top_p : ℚ)
    (choice : ℕ) : Option ℕ :=
  (idx.take (nucleus_keep_len probs top_p)).get? choice

/-- The metadata dictionary `generate_sled` returns (lines 318-326). -/
structure SledMeta where
  layers : String
  k : ℕ
  chosen_indices : List ℤ
  weighting_requested : String
  weighting_applied : String
  weights_info : String
  weights_path : Option String
deriving DecidableEq

/-- The weighting resolution of `generate_sled` (lines 268-278) and its
metadata assembly (lines 312-326), as a function of the artifact `file`
found at `weights_path`.  Returns the metadata together with the loaded
`learned_w`, if any. -/
def sled_meta (layers : String) (k : ℤ) (num_layers : ℕ)
    (weighting weights_path : String) (file : Option NpzFile) :
    SledMeta × Option (List ℚ) :=
  let chosen := select_layer_indices num_layers layers k
  let k_eff := chosen.length
  let requested := weighting
  let learned_w :=
    if requested = "learned" then load_learned_weights k_eff file (some chosen)
    else none
  let applied :=
    if requested = "learned" ∧ learned_w = none then "uniform" else requested
  let info :=
    if requested = "learned" ∧ learned_w = none then
      "learned_missing_fallback_uniform"
    else if applied = "learned" then "learned"
    else applied
  (SledMeta.mk layers k_eff chosen requested applied info
    (if applied = "learned" then some weights_path else none), learned_w)

/-- The per-step combination `generate_sled` performs (lines 297-303):
the loaded learned weights when the applied policy is `"learned"`,
otherwise `_combine_layer_logits` under the applied policy. -/
def sled_step_logits (e : ℚ → ℚ) (applied : String)
    (learned_w : Option (List ℚ)) (layer_logits : List (List ℚ)) :
    Option (List ℚ) :=
  match learned_w with
  | some w =>
    if applied = "learned" then
      some (weighted_sum w layer_logits ((layer_logits.headD []).length))
    else combine_layer_logits e layer_logits applied
  | none => combine_layer_logits e layer_logits applied

/-- The clip-and-normalize post-processing of `fit_layer_weights`
(lines 472-478): negatives clipped to zero, renormalized to sum `1`,
with the uniform vector substituted when the clipped sum is `≤ 0`. -/
def normalize_fit_weights (w : List ℚ) : List ℚ :=
  let w' := w.map (fun x => max x 0)
  let s := w'.sum
  if s ≤ 0 then List.replicate w.length ((1 : ℚ) / (w.length : ℚ))
  else w'.map (fun x => x / s)

/-- One line of the calibration JSONL dataset, by parse outcome: blank
after strip, invalid JSON (skipped by the per-line try/except), or a
parsed object carrying its `prompt`, `answer` and `completion` fields
(absent fields read as `""` via `dict.get`). -/
inductive RawLine where
  | blank : RawLine
  | malformed : RawLine
  | item (prompt answer completion : String) : RawLine
deriving DecidableEq

/-- Python's `item.get("answer", "") or item.get("completion", "")`. -/
def item_target (answer completion : String) : String :=
  if answer = "" then completion else answer

/-- The dataset streaming loop of `fit_layer_weights` (lines 424-454):
skip blank and malformed lines and items with an empty prompt or target,
collect this item's feature rows via `collect` (the embedding of
`_collect_step_features`), skip items yielding no rows, and stop once
`max_items` items have been used; `used` is the running `items_used`
counter, checked after each append. -/
def gather_rows (collect : String → String → List (List ℚ) × List ℚ)
    (max_items : ℕ) : List RawLine → ℕ → List (List (List ℚ) × List ℚ)
  | [], _ => []
  | line :: rest, used =>
    match line with
    | .blank => gather_rows collect max_items rest used
    | .malformed => gather_rows collect max_items rest used
    | .item p a c =>
      if p = "" ∨ item_target a c = "" then
        gather_rows collect max_items rest used
      else
        let r := collect p (item_target a c)
        if r.1 = [] then gather_rows collect max_items rest used
        else
          r :: (if max_items ≤ used + 1 then []
                else gather_rows collect max_items rest (used + 1))

/-- The success dictionary of `fit_layer_weights` (lines 485-491). -/
structure FitSuccess where
  k : ℕ
  out_path : String
  items_used : ℕ
  steps_collected : ℕ
deriving DecidableEq

/-- A value returned by `fit_layer_weights`: either the success
dictionary together with the artifact `np.savez` wrote at `out_path`,
or an `{ok: False, error: ...}` dictionary, which writes nothing. -/
inductive FitResult where
  | ok (s : FitSuccess) (written : NpzFile) : FitResult
  | err (error : String) : FitResult
deriving DecidableEq

/-- Embedding of `fit_layer_weights`.  `solve` abstracts the ridge
solve `(XᵗX + αI)⁻¹Xᵗy` of lines 462-470 together with its
least-squares fallback on a singular system (neither escapes the
function); `collect` abstracts `_collect_step_features`; `open_result`
is the outcome of `open(jsonl_path)`, whose `Except.error` case is an
OSError — the `open` standing outside any try block, that exception
propagates out, so the overall result is `Except` with `.error` an
uncaught exception crossing the function boundary. -/
def fit_layer_weights (solve : List (List ℚ) → List ℚ → List ℚ)
    (collect : String → String → List (List ℚ) × List ℚ)
    (open_result : Except String (List RawLine))
    (num_layers : ℕ) (layers : String) (k : ℤ) (max_items : ℕ)
    (out_path : String) : Except String FitResult :=
  let chosen := select_layer_indices num_layers layers k
  if chosen = [] then .ok (.err "No layers selected for calibration.")
  else
    match open_result with
    | .error e => .error e
    | .ok lines =>
      let rows := gather_rows collect max_items lines 0
      if rows = [] then .ok (.err "No usable calibration items found.")
      else
        let X := (rows.map Prod.fst).flatten
        let w := normalize_fit_weights (solve X ((rows.map Prod.snd).flatten))
        .ok (.ok (FitSuccess.mk (X.headD []).length out_path rows.length
              X.length)
              (NpzFile.mk (some w) (some chosen)))

/-- Whether `fit_layer_weights` returned a value at all (a structured
dictionary) rather than letting an exception escape. -/
def returns_structured (r : Except String FitResult) : Bool :=
  match r with
  | .ok _ => true
  | .error _ => false

/-- C1: for every `total_layers ≥ 1` and every integer `k`,
`_select_layer_indices(total_layers, "last_k", k)` is the contiguous
ascending range of length `min(max(k,1), total_layers)` ending at
`total_layers - 1`; out-of-range `k` is clamped, never rejected;
`"all"` returns `[0, total_layers)`; `select(12,"last_k",8) = [4..11]`
and `select(3,"last_k",8) = [0,1,2]`. -/
theorem select_last_k_spec :
    (∀ (n : ℕ) (k : ℤ), 1 ≤ n →
      select_layer_indices n "last_k" k =
        (List.range (min (max k 1) (n : ℤ)).toNat).map
          (fun i : ℕ => (n : ℤ) - min (max k 1) (n : ℤ) + (i : ℤ)) ∧
      (select_layer_indices n "last_k" k).length = (min (max k 1) (n : ℤ)).toNat ∧
      (select_layer_indices n "last_k" k).getLast? = some ((n : ℤ) - 1)) ∧
    (∀ (n : ℕ) (k : ℤ),
      select_layer_indices n "all" k = (List.range n).map Int.ofNat) ∧
    select_layer_indices 12 "last_k" 8 = [4, 5, 6, 7, 8, 9, 10, 11] ∧
    select_layer_indices 3 "last_k" 8 = [0, 1, 2] := by
  refine ⟨?_, ?_, by decide, by decide⟩
  · intro n k hn
    have hclamp : max 1 (min k (n : ℤ)) = min (max k 1) (n : ℤ) := by omega
    have hsel : select_layer_indices n "last_k" k =
        (List.range (min (max k 1) (n : ℤ)).toNat).map
          (fun i : ℕ => (n : ℤ) - min (max k 1) (n : ℤ) + (i : ℤ)) := by
      unfold select_layer_indices
      rw [if_neg (by decide)]
      rw [hclamp]
    refine ⟨hsel, ?_, ?_⟩
    · rw [hsel]; simp
    · set c : ℤ := min (max k 1) (n : ℤ) with hc
      have hc1 : 1 ≤ c := by omega
      have hcn : (c.toNat : ℤ) = c := Int.toNat_of_nonneg (by omega)
      obtain ⟨m, hm⟩ : ∃ m, c.toNat = m + 1 := by
        refine ⟨c.toNat - 1, ?_⟩; omega
      rw [hsel, hm, List.range_succ, List.map_append]
      rw [List.getLast?_append_of_ne_nil _ (by simp)]
      simp only [List.map_cons, List.map_nil, List.getLast?_singleton]
      have hmc : (m : ℤ) = c - 1 := by
        have := hcn; rw [hm] at this; push_cast at this; omega
      rw [hmc]
      ring_nf
  · intro n k
    unfold select_layer_indices
    rw [if_pos rfl]

/-- Closed instantiation of `select_last_k_spec` at `n = 12`, `k = 8`. -/
theorem select_last_k_spec_witness :
    1 ≤ 12 ∧ (select_layer_indices 12 "last_k" 8).getLast? = some ((12 : ℤ) - 1) :=
  ⟨by decide, (select_last_k_spec.1 12 8 (by decide)).2.2⟩

/-- Two equal-length integer lists that are not equal have a position
where their zipped entries differ. -/
lemma zip_any_ne_of_ne (a : List ℤ) :
    ∀ b : List ℤ, a.length = b.length → a ≠ b →
      (a.zip b).any (fun p => p.1 != p.2) = true := by
  induction a with
  | nil =>
    intro b hlen hne
    cases b with
    | nil => exact absurd rfl hne
    | cons y ys => simp at hlen
  | cons x xs ih =>
    intro b hlen hne
    cases b with
    | nil => simp at hlen
    | cons y ys =>
      simp only [List.zip_cons_cons, List.any_cons, Bool.or_eq_true, bne_iff_ne, ne_eq]
      by_cases hxy : x = y
      · subst hxy
        refine Or.inr (ih ys ?_ ?_)
        · simpa using hlen
        · intro hh
          exact hne (by rw [hh])
      · exact Or.inl hxy

/-- Sum of a list divided elementwise by a constant. -/
lemma sum_map_div (w : List ℚ) (s : ℚ) :
    (w.map (fun x => x / s)).sum = w.sum / s := by
  induction w with
  | nil => simp
  | cons x xs ih => simp [ih, add_div]

/-- C3: an artifact whose stored chosen-layer list differs from the
currently requested one — in length or in any element — is rejected:
`_load_learned_weights` returns `None` and the stored weights are never
applied.  The hypothesis `c.length = n` records that the caller requests
weights for exactly the layers in `c`, as `generate_sled` does. -/
theorem load_rejects_mismatched_chosen (d : NpzFile) (saved c : List ℤ) (n : ℕ)
    (hsaved : d.chosen = some saved) (hlen : c.length = n) (hne : saved ≠ c) :
    load_learned_weights n (some d) (some c) = none := by
  obtain ⟨lw, ch⟩ := d
  simp only at hsaved
  subst hsaved
  have hmis : chosen_mismatch n (some c) (some saved) = true := by
    unfold chosen_mismatch
    by_cases hl : saved.length = n
    · have : saved.length = c.length := by omega
      simp [zip_any_ne_of_ne saved c this hne]
    · simp [hl]
  cases lw with
  | none => rfl
  | some w =>
    by_cases hw : w.length = n
    · simp [load_learned_weights, hw, hmis]
    · simp [load_learned_weights, hw]

/-- Closed instantiation of `load_rejects_mismatched_chosen`: the stored
layers `[0,1]` differ from the requested `[1,2]`, so the artifact is
rejected (mirrors the repository test `test_learned_mismatch_layers`). -/
theorem load_rejects_mismatched_chosen_witness :
    (NpzFile.mk (some [1/2, 1/2]) (some [0, 1])).chosen = some [0, 1] ∧
    ([1, 2] : List ℤ).length = 2 ∧
    ([0, 1] : List ℤ) ≠ [1, 2] ∧
    load_learned_weights 2 (some (NpzFile.mk (some [1/2, 1/2]) (some [0, 1])))
      (some [1, 2]) = none :=
  ⟨rfl, rfl, by decide,
    load_rejects_mismatched_chosen _ [0, 1] [1, 2] 2 rfl rfl (by decide)⟩

/-- C10: an artifact storing a `layer_weights` array of the requested
size but no `chosen` array is accepted — the layer-set check runs only
when both the requested and the stored lists are present — and the
result is the stored vector renormalized to sum `1`, or uniform when the
stored sum is `0`. -/
theorem load_accepts_artifact_without_chosen (w : List ℚ)
    (c saved : Option (List ℤ)) (n : ℕ) (hw : w.length = n) (hn : 1 ≤ n) :
    load_learned_weights n (some (NpzFile.mk (some w) none)) c =
      some (renorm_loaded n w) ∧
    load_learned_weights n (some (NpzFile.mk (some w) saved)) none =
      some (renorm_loaded n w) ∧
    (w.sum ≠ 0 → renorm_loaded n w = w.map (fun x => x / w.sum)) ∧
    (w.sum = 0 → renorm_loaded n w = List.replicate n ((1 : ℚ) / (n : ℚ))) ∧
    (renorm_loaded n w).sum = 1 := by
  have hmis1 : chosen_mismatch n c none = false := by
    cases c <;> rfl
  have hmis2 : chosen_mismatch n none saved = false := by
    cases saved <;> rfl
  refine ⟨by simp [load_learned_weights, hw, hmis1],
    by simp [load_learned_weights, hw, hmis2], ?_, ?_, ?_⟩
  · intro hs
    simp [renorm_loaded, abs_pos.mpr hs]
  · intro hs
    simp [renorm_loaded, hs]
  · unfold renorm_loaded
    by_cases hs : w.sum = 0
    · rw [if_neg (by simp [hs]), List.sum_replicate, nsmul_eq_mul]
      have hn0 : (n : ℚ) ≠ 0 := by
        have : 0 < n := hn
        exact_mod_cast this.ne'
      field_simp
    · rw [if_pos (abs_pos.mpr hs), sum_map_div, div_self hs]

/-- Closed instantiation of `load_accepts_artifact_without_chosen` at a
two-entry artifact with no stored `chosen` array. -/
theorem load_accepts_artifact_without_chosen_witness :
    ([2, 2] : List ℚ).length = 2 ∧ 1 ≤ 2 ∧
    load_learned_weights 2 (some (NpzFile.mk (some [2, 2]) none)) (some [0, 1]) =
      some (renorm_loaded 2 [2, 2]) ∧
    (renorm_loaded 2 [2, 2]).sum = 1 := by
  refine ⟨rfl, by decide, ?_, ?_⟩
  · exact (load_accepts_artifact_without_chosen [2, 2] (some [0, 1]) none 2 rfl
      (by decide)).1
  · exact (load_accepts_artifact_without_chosen [2, 2] (some [0, 1]) none 2 rfl
      (by decide)).2.2.2.2

/-- Zipping a list of integers with itself never flags a difference. -/
lemma zip_self_any_ne (c : List ℤ) :
    (c.zip c).any (fun p => p.1 != p.2) = false := by
  induction c with
  | nil => rfl
  | cons x xs ih => simp [List.zip_cons_cons, ih]

/-- Requesting exactly the stored layer list passes the artifact check. -/
lemma chosen_mismatch_self (c : List ℤ) (n : ℕ) (hlen : c.length = n) :
    chosen_mismatch n (some c) (some c) = false := by
  unfold chosen_mismatch
  simp [hlen, zip_self_any_ne]

/-- With at least one model layer, layer selection never comes back
empty, whatever the strategy string and `k`. -/
lemma select_ne_nil (num_layers : ℕ) (layers : String) (k : ℤ)
    (hn : 1 ≤ num_layers) :
    select_layer_indices num_layers layers k ≠ [] := by
  unfold select_layer_indices
  by_cases h : layers = "all"
  · rw [if_pos h]
    simp [List.range_eq_nil]
    omega
  · rw [if_neg h]
    simp [List.range_eq_nil]

/-- C4: every artifact `fit_layer_weights` writes carries the
clip-renormalized weight vector together with the exact chosen layers;
that vector is non-negative, sums to `1` (uniform when the clipped sum
is `≤ 0`), and reloading it with the same chosen layers returns it
unchanged, summing to `1` within `1e-5` (exactly, in exact
arithmetic). -/
theorem calibration_artifact_normalized :
    (∀ (solve : List (List ℚ) → List ℚ → List ℚ)
       (collect : String → String → List (List ℚ) × List ℚ)
       (open_result : Except String (List RawLine))
       (num_layers : ℕ) (layers : String) (k : ℤ) (max_items : ℕ)
       (out_path : String) (s : FitSuccess) (art : NpzFile),
      fit_layer_weights solve collect open_result num_layers layers k
        max_items out_path = .ok (.ok s art) →
      ∃ w0, art = NpzFile.mk (some (normalize_fit_weights w0))
        (some (select_layer_indices num_layers layers k))) ∧
    (∀ (w0 : List ℚ) (c : List ℤ) (n : ℕ),
      w0.length = n → 1 ≤ n → c.length = n →
      (∀ x ∈ normalize_fit_weights w0, 0 ≤ x) ∧
      (normalize_fit_weights w0).sum = 1 ∧
      (normalize_fit_weights w0).length = n ∧
      ((w0.map (fun x => max x 0)).sum ≤ 0 →
        normalize_fit_weights w0 = List.replicate n ((1 : ℚ) / (n : ℚ))) ∧
      load_learned_weights n
        (some (NpzFile.mk (some (normalize_fit_weights w0)) (some c)))
        (some c) = some (normalize_fit_weights w0) ∧
      |(normalize_fit_weights w0).sum - 1| ≤ 1 / 100000) := by
  constructor
  · intro solve collect open_result num_layers layers k max_items out_path s art h
    unfold fit_layer_weights at h
    by_cases hch : select_layer_indices num_layers layers k = []
    · rw [if_pos hch] at h
      simp at h
    · rw [if_neg hch] at h
      cases open_result with
      | error e => simp at h
      | ok lines =>
        simp only at h
        by_cases hrows : gather_rows collect max_items lines 0 = []
        · rw [if_pos hrows] at h
          simp at h
        · rw [if_neg hrows] at h
          simp only [Except.ok.injEq, FitResult.ok.injEq] at h
          exact ⟨_, h.2.symm⟩
  · intro w0 c n hw hn hc
    have hn0 : (0 : ℚ) < (n : ℚ) := by exact_mod_cast hn
    have hnonneg : ∀ x ∈ w0.map (fun x => max x 0), 0 ≤ x := by
      intro x hx
      obtain ⟨y, _, rfl⟩ := List.mem_map.mp hx
      exact le_max_right y 0
    have hs_nonneg : 0 ≤ (w0.map (fun x => max x 0)).sum :=
      List.sum_nonneg hnonneg
    have key : (∀ x ∈ normalize_fit_weights w0, 0 ≤ x) ∧
        (normalize_fit_weights w0).sum = 1 ∧
        (normalize_fit_weights w0).length = n := by
      unfold normalize_fit_weights
      by_cases hs : (w0.map (fun x => max x 0)).sum ≤ 0
      · rw [if_pos hs]
        refine ⟨?_, ?_, ?_⟩
        · intro x hx
          rw [List.eq_of_mem_replicate hx]
          positivity
        · rw [List.sum_replicate, nsmul_eq_mul, hw]
          field_simp
        · rw [List.length_replicate, hw]
      · rw [if_neg hs]
        push_neg at hs
        refine ⟨?_, ?_, ?_⟩
        · intro x hx
          obtain ⟨y, hy, rfl⟩ := List.mem_map.mp hx
          exact div_nonneg (hnonneg y hy) (le_of_lt hs)
        · rw [sum_map_div, div_self (ne_of_gt hs)]
        · rw [List.length_map, List.length_map, hw]
    obtain ⟨k1, k2, k3⟩ := key
    have hload : load_learned_weights n
        (some (NpzFile.mk (some (normalize_fit_weights w0)) (some c)))
        (some c) = some (normalize_fit_weights w0) := by
      have hmis := chosen_mismatch_self c n hc
      have hr : renorm_loaded n (normalize_fit_weights w0) =
          normalize_fit_weights w0 := by
        unfold renorm_loaded
        rw [k2]
        norm_num
      simp [load_learned_weights, k3, hmis, hr]
    refine ⟨k1, k2, k3, ?_, hload, by rw [k2]; norm_num⟩
    intro hs
    unfold normalize_fit_weights
    rw [if_pos hs, hw]

/-- Closed instantiation of `calibration_artifact_normalized` at the
raw solver output `[2, -1]` with chosen layers `[0, 1]`. -/
theorem calibration_artifact_normalized_witness :
    ([2, -1] : List ℚ).length = 2 ∧ 1 ≤ 2 ∧ ([0, 1] : List ℤ).length = 2 ∧
    (normalize_fit_weights [2, -1]).sum = 1 ∧
    load_learned_weights 2
      (some (NpzFile.mk (some (normalize_fit_weights [2, -1])) (some [0, 1])))
      (some [0, 1]) = some (normalize_fit_weights [2, -1]) :=
  ⟨rfl, by decide, rfl,
    (calibration_artifact_normalized.2 [2, -1] [0, 1] 2 rfl (by decide) rfl).2.1,
    (calibration_artifact_normalized.2 [2, -1] [0, 1] 2 rfl (by decide)
      rfl).2.2.2.2.1⟩

/-- C5: a readable dataset that yields zero usable rows makes
`fit_layer_weights` return the structured failure dictionary with a
non-empty error, raising nothing and writing no artifact — the save
step lies beyond the early return. -/
theorem fit_zero_usable_rows_reported
    (solve : List (List ℚ) → List ℚ → List ℚ)
    (collect : String → String → List (List ℚ) × List ℚ)
    (lines : List RawLine) (num_layers : ℕ) (layers : String) (k : ℤ)
    (max_items : ℕ) (out_path : String)
    (hn : 1 ≤ num_layers)
    (hrows : gather_rows collect max_items lines 0 = []) :
    fit_layer_weights solve collect (.ok lines) num_layers layers k max_items
      out_path = .ok (.err "No usable calibration items found.") ∧
    "No usable calibration items found." ≠ "" ∧
    returns_structured (fit_layer_weights solve collect (.ok lines) num_layers
      layers k max_items out_path) = true ∧
    ∀ (s : FitSuccess) (art : NpzFile),
      fit_layer_weights solve collect (.ok lines) num_layers layers k max_items
        out_path ≠ .ok (.ok s art) := by
  have hmain : fit_layer_weights solve collect (.ok lines) num_layers layers k
      max_items out_path = .ok (.err "No usable calibration items found.") := by
    unfold fit_layer_weights
    rw [if_neg (select_ne_nil num_layers layers k hn)]
    simp only
    rw [if_pos hrows]
  refine ⟨hmain, by decide, by rw [hmain]; rfl, ?_⟩
  intro s art h
  rw [hmain] at h
  simp at h

/-- Closed instantiation of `fit_zero_usable_rows_reported` on a
dataset whose lines are all blank, malformed, or missing a prompt or
target. -/
theorem fit_zero_usable_rows_reported_witness :
    1 ≤ 3 ∧
    gather_rows (fun _ _ => ([], [])) 200
      [RawLine.blank, RawLine.malformed, RawLine.item "" "a" "",
       RawLine.item "p" "" ""] 0 = [] ∧
    fit_layer_weights (fun _ _ => []) (fun _ _ => ([], []))
      (.ok [RawLine.blank, RawLine.malformed, RawLine.item "" "a" "",
            RawLine.item "p" "" ""]) 3 "last_k" 8 200 "sled_weights.npz"
      = .ok (.err "No usable calibration items found.") :=
  ⟨by decide, by decide,
    (fit_zero_usable_rows_reported (fun _ _ => []) (fun _ _ => ([], []))
      [RawLine.blank, RawLine.malformed, RawLine.item "" "a" "",
       RawLine.item "p" "" ""] 3 "last_k" 8 200 "sled_weights.npz"
      (by decide) (by decide)).1⟩

/-- C6 counterexample: with at least one layer selected, an unopenable
dataset path does NOT produce a structured `{ok: false}` result from
`fit_layer_weights` — the OSError from `open` (line 424, outside any
try block) propagates out of the function, here as `Except.error`. -/
theorem fit_unreadable_dataset_counterexample :
    returns_structured (fit_layer_weights (fun _ _ => []) (fun _ _ => ([], []))
      (.error "No such file or directory") 12 "last_k" 8 200
      "sled_weights.npz") = false := by
  decide

/-- C6 amended: when the dataset file cannot be opened, the exception
propagates out of `fit_layer_weights` unchanged (the serving layer's
`/calibrate` handler, not this function, converts it into
`{ok: false, error}`). -/
theorem fit_unreadable_dataset_raises
    (solve : List (List ℚ) → List ℚ → List ℚ)
    (collect : String → String → List (List ℚ) × List ℚ)
    (emsg : String) (num_layers : ℕ) (layers : String) (k : ℤ)
    (max_items : ℕ) (out_path : String) (hn : 1 ≤ num_layers) :
    fit_layer_weights solve collect (.error emsg) num_layers layers k max_items
      out_path = .error emsg := by
  unfold fit_layer_weights
  rw [if_neg (select_ne_nil num_layers layers k hn)]

/-- Closed instantiation of `fit_unreadable_dataset_raises` at a
12-layer model and a missing-file error message. -/
theorem fit_unreadable_dataset_raises_witness :
    1 ≤ 12 ∧
    fit_layer_weights (fun _ _ => []) (fun _ _ => ([], []))
      (.error "No such file or directory") 12 "last_k" 8 200
      "sled_weights.npz" = .error "No such file or directory" :=
  ⟨by decide,
    fit_unreadable_dataset_raises (fun _ _ => []) (fun _ _ => ([], []))
      "No such file or directory" 12 "last_k" 8 200 "sled_weights.npz"
      (by decide)⟩

/-- C2: when `weighting="learned"` is requested but no artifact can be
loaded from `weights_path` — file missing, unreadable, or incompatible,
all the cases in which `_load_learned_weights` yields `None` — the call
still completes (the resolution is total), the returned metadata
reports `weighting_applied = "uniform"` against
`weighting_requested = "learned"`, and every decode step combines with
the uniform policy. -/
theorem learned_fallback_uniform (layers : String) (k : ℤ) (num_layers : ℕ)
    (weights_path : String) (file : Option NpzFile)
    (hload : load_learned_weights
        (select_layer_indices num_layers layers k).length file
        (some (select_layer_indices num_layers layers k)) = none) :
    (sled_meta layers k num_layers "learned" weights_path file).1.weighting_applied
      = "uniform" ∧
    (sled_meta layers k num_layers "learned" weights_path file).1.weighting_requested
      = "learned" ∧
    (sled_meta layers k num_layers "learned" weights_path file).2 = none ∧
    (sled_meta layers k num_layers "learned" weights_path file).1.weights_info
      = "learned_missing_fallback_uniform" ∧
    (sled_meta layers k num_layers "learned" weights_path file).1.weights_path
      = none ∧
    ∀ (e : ℚ → ℚ) (ls : List (List ℚ)),
      sled_step_logits e
        (sled_meta layers k num_layers "learned" weights_path file).1.weighting_applied
        (sled_meta layers k num_layers "learned" weights_path file).2 ls
      = combine_layer_logits e ls "uniform" := by
  have hmeta : sled_meta layers k num_layers "learned" weights_path file =
      (SledMeta.mk layers (select_layer_indices num_layers layers k).length
        (select_layer_indices num_layers layers k) "learned" "uniform"
        "learned_missing_fallback_uniform" none, none) := by
    unfold sled_meta
    simp [hload]
  rw [hmeta]
  refine ⟨rfl, rfl, rfl, rfl, rfl, ?_⟩
  intro e ls
  rfl

/-- Closed instantiation of `learned_fallback_uniform` with a missing
artifact file at a 12-layer model. -/
theorem learned_fallback_uniform_witness :
    load_learned_weights (select_layer_indices 12 "last_k" 8).length none
      (some (select_layer_indices 12 "last_k" 8)) = none ∧
    (sled_meta "last_k" 8 12 "learned" "sled_weights.npz" none).1.weighting_applied
      = "uniform" ∧
    (sled_meta "last_k" 8 12 "learned" "sled_weights.npz" none).1.weighting_requested
      = "learned" :=
  ⟨rfl,
    (learned_fallback_uniform "last_k" 8 12 "sled_weights.npz" none rfl).1,
    (learned_fallback_uniform "last_k" 8 12 "sled_weights.npz" none rfl).2.1⟩

/-- C9 counterexample: the sampler divides the logits by
`max(1e-6, temperature)`, so at the positive temperature `1e-7` the
pre-softmax values are `logits / 1e-6`, not `logits / temperature`:
on `logits = [1]` the code produces `[1e6]` where the claim demands
`[1e7]`. -/
theorem nucleus_temperature_scale_counterexample :
    (0 : ℚ) < 1 / 10000000 ∧
    nucleus_scaled_logits [1] (1 / 10000000) = [(1000000 : ℚ)] ∧
    nucleus_scaled_logits [1] (1 / 10000000) ≠
      ([1] : List ℚ).map (fun x => x / (1 / 10000000)) := by
  have hmax : max ((1 : ℚ) / 1000000) (1 / 10000000) = 1 / 1000000 :=
    max_eq_left (by norm_num)
  refine ⟨by norm_num, ?_, ?_⟩
  · unfold nucleus_scaled_logits
    rw [List.map_singleton, hmax]
    norm_num
  · unfold nucleus_scaled_logits
    rw [List.map_singleton, List.map_singleton, hmax]
    intro h
    have := List.head_eq_of_cons_eq h
    norm_num at this

/-- C9 amended: the sampler scales by `1 / max(1e-6, temperature)`; for
every temperature `≥ 1e-6` — in particular the documented range — the
pre-softmax values equal `logits / temperature` exactly. -/
theorem nucleus_temperature_scale (logits : List ℚ) (t : ℚ)
    (ht : 1 / 1000000 ≤ t) :
    nucleus_scaled_logits logits t = logits.map (fun x => x / t) := by
  unfold nucleus_scaled_logits
  rw [max_eq_right ht]

/-- Closed instantiation of `nucleus_temperature_scale` at
`temperature = 1`. -/
theorem nucleus_temperature_scale_witness :
    (1 : ℚ) / 1000000 ≤ 1 ∧
    nucleus_scaled_logits [2, 3] 1 = ([2, 3] : List ℚ).map (fun x => x / 1) :=
  ⟨by norm_num, nucleus_temperature_scale [2, 3] 1 (by norm_num)⟩

/-- Entry `j` of an elementwise vector sum. -/
lemma getD_vec_add (a b : List ℚ) (j : ℕ) (hja : j < a.length)
    (hjb : j < b.length) :
    (vec_add a b).getD j 0 = a.getD j 0 + b.getD j 0 := by
  have hlen : j < (vec_add a b).length := by
    simp only [vec_add, List.length_zipWith]
    omega
  rw [List.getD_eq_getElem _ 0 hlen, List.getD_eq_getElem _ 0 hja,
    List.getD_eq_getElem _ 0 hjb]
  simp [vec_add]

/-- Folding `vec_add` over equal-length vectors starting from the zero
vector: the result keeps length `m` and entry `j` is the sum of the
entries `j`. -/
lemma foldr_vec_add_spec (pl : List (List ℚ)) (m : ℕ)
    (h : ∀ v ∈ pl, v.length = m) :
    (pl.foldr vec_add (List.replicate m 0)).length = m ∧
    ∀ j, j < m → (pl.foldr vec_add (List.replicate m 0)).getD j 0 =
      (pl.map (fun v => v.getD j 0)).sum := by
  induction pl with
  | nil =>
    refine ⟨by simp, fun j hj => ?_⟩
    simp only [List.foldr_nil, List.map_nil, List.sum_nil]
    rw [List.getD_eq_getElem _ 0 (by simpa using hj)]
    simp
  | cons v pl ih =>
    have hv : v.length = m := h v (List.mem_cons_self v pl)
    obtain ⟨ihL, ihG⟩ := ih (fun u hu => h u (List.mem_cons_of_mem v hu))
    have hL : ((v :: pl).foldr vec_add (List.replicate m 0)).length = m := by
      simp only [List.foldr_cons, vec_add, List.length_zipWith, hv, ihL,
        min_self]
    refine ⟨hL, fun j hj => ?_⟩
    simp only [List.foldr_cons, List.map_cons, List.sum_cons]
    rw [getD_vec_add v (pl.foldr vec_add (List.replicate m 0)) j (by omega)
      (by rw [ihL]; exact hj), ihG j hj]

/-- The weighted elementwise sum of equal-length layer vectors: entry
`j` is the weighted sum of the layers' entries `j`. -/
lemma weighted_sum_spec (w : List ℚ) (ls : List (List ℚ)) (m : ℕ)
    (h : ∀ l ∈ ls, l.length = m) :
    (weighted_sum w ls m).length = m ∧
    ∀ j, j < m → (weighted_sum w ls m).getD j 0 =
      ((w.zip ls).map (fun p => p.1 * p.2.getD j 0)).sum := by
  have hpl : ∀ v ∈ (w.zip ls).map (fun p => vec_scale p.1 p.2), v.length = m := by
    intro v hv
    obtain ⟨p, hp, rfl⟩ := List.mem_map.mp hv
    have hmem := (List.of_mem_zip hp).2
    simp [vec_scale, h p.2 hmem]
  obtain ⟨hL, hG⟩ := foldr_vec_add_spec _ m hpl
  have hdef : weighted_sum w ls m =
      ((w.zip ls).map (fun p => vec_scale p.1 p.2)).foldr vec_add
        (List.replicate m 0) := rfl
  refine ⟨by rw [hdef]; exact hL, fun j hj => ?_⟩
  rw [hdef, hG j hj, List.map_map]
  apply congrArg List.sum
  apply List.map_congr_left
  intro p hp
  have h2 : p.2.length = m := h p.2 (List.of_mem_zip hp).2
  simp only [Function.comp_apply]
  rw [List.getD_eq_getElem _ 0 (by simp [vec_scale]; omega),
    List.getD_eq_getElem _ 0 (show j < p.2.length by omega)]
  simp [vec_scale]

/-- C8: on a non-empty stack of equal-length per-layer logit vectors
the Combiner returns the elementwise sum of `weight_i * logits_i` under
the policy's weights — `"uniform"` weighting every layer `1/k_eff` —
a single-layer stack passes through unchanged under every policy, and
`combine([[0,0],[2,2]], "uniform") = [1,1]`. -/
theorem combine_uniform_spec :
    (∀ (e : ℚ → ℚ) (ls : List (List ℚ)) (m : ℕ), ls ≠ [] →
      (∀ l ∈ ls, l.length = m) →
      ∃ v, combine_layer_logits e ls "uniform" = some v ∧ v.length = m ∧
        ∀ j, j < m → v.getD j 0 =
          (((uniform_weights ls.length).zip ls).map
            (fun p => p.1 * p.2.getD j 0)).sum) ∧
    (∀ (e : ℚ → ℚ) (l : List ℚ) (weighting : String),
      combine_layer_logits e [l] weighting = some l) ∧
    combine_layer_logits (fun x => x) [[0, 0], [2, 2]] "uniform" = some [1, 1] := by
  have hpass : ∀ (e : ℚ → ℚ) (l : List ℚ) (weighting : String),
      combine_layer_logits e [l] weighting = some l := fun e l weighting => rfl
  have hmain : ∀ (e : ℚ → ℚ) (ls : List (List ℚ)) (m : ℕ), ls ≠ [] →
      (∀ l ∈ ls, l.length = m) →
      ∃ v, combine_layer_logits e ls "uniform" = some v ∧ v.length = m ∧
        ∀ j, j < m → v.getD j 0 =
          (((uniform_weights ls.length).zip ls).map
            (fun p => p.1 * p.2.getD j 0)).sum := by
    intro e ls m hne h
    cases ls with
    | nil => exact absurd rfl hne
    | cons a tl =>
      cases tl with
      | nil =>
        have ha : a.length = m := h a (List.mem_cons_self a [])
        refine ⟨a, hpass e a "uniform", ha, fun j hj => ?_⟩
        simp only [List.length_cons, List.length_nil, uniform_weights,
          List.replicate, List.zip_cons_cons, List.zip_nil_right,
          List.map_cons, List.map_nil, List.sum_cons, List.sum_nil]
        norm_num
      | cons b tl2 =>
        have ha : a.length = m := h a (List.mem_cons_self a (b :: tl2))
        have hcomb : combine_layer_logits e (a :: b :: tl2) "uniform" =
            some (weighted_sum (uniform_weights (a :: b :: tl2).length)
              (a :: b :: tl2) a.length) := by
          simp only [combine_layer_logits]
          rw [if_neg (by decide)]
          rfl
        rw [ha] at hcomb
        obtain ⟨hL, hG⟩ :=
          weighted_sum_spec (uniform_weights (a :: b :: tl2).length)
            (a :: b :: tl2) m h
        exact ⟨_, hcomb, hL, hG⟩
  refine ⟨hmain, hpass, ?_⟩
  obtain ⟨v, hv, hvl, hvg⟩ := hmain (fun x => x) [[0, 0], [2, 2]] 2 (by simp)
    (by
      intro l hl
      rcases List.mem_cons.mp hl with rfl | hl2
      · rfl
      · rcases List.mem_cons.mp hl2 with rfl | h2
        · rfl
        · simp at h2)
  rw [hv]
  have h0 := hvg 0 (by omega)
  have h1 := hvg 1 (by omega)
  simp only [List.length_cons, List.length_nil, uniform_weights,
    List.replicate, List.zip_cons_cons, List.zip_nil_right, List.map_cons,
    List.map_nil, List.sum_cons, List.sum_nil] at h0 h1
  norm_num at h0 h1
  have : v = [1, 1] := by
    have hv2 : v.length = 2 := hvl
    cases v with
    | nil => simp at hv2
    | cons x xs =>
      cases xs with
      | nil => simp at hv2
      | cons y ys =>
        cases ys with
        | nil =>
          simp only [List.getElem?_cons_zero, List.getElem?_cons_succ,
            Option.getD_some] at h0 h1
          rw [h0, h1]
        | cons z zs => simp at hv2
  rw [this]

/-- Closed instantiation of `combine_uniform_spec` on the two-layer
stack `[[0,0],[2,2]]`. -/
theorem combine_uniform_spec_witness :
    (([[0, 0], [2, 2]] : List (List ℚ)) ≠ []) ∧
    (∀ l ∈ ([[0, 0], [2, 2]] : List (List ℚ)), l.length = 2) ∧
    ∃ v, combine_layer_logits (fun x => x) [[0, 0], [2, 2]] "uniform" = some v ∧
      v.length = 2 ∧ ∀ j, j < 2 → v.getD j 0 =
        (((uniform_weights 2).zip ([[0, 0], [2, 2]] : List (List ℚ))).map
          (fun p => p.1 * p.2.getD j 0)).sum := by
  have hlens : ∀ l ∈ ([[0, 0], [2, 2]] : List (List ℚ)), l.length = 2 := by
    intro l hl
    rcases List.mem_cons.mp hl with rfl | hl2
    · rfl
    · rcases List.mem_cons.mp hl2 with rfl | h2
      · rfl
      · simp at h2
  exact ⟨by simp, hlens,
    combine_uniform_spec.1 (fun x => x) [[0, 0], [2, 2]] 2 (by simp) hlens⟩

/-- Searching a shifted cumulative list is searching the original list
against a shifted threshold. -/
lemma first_crossing_map_add (q x : ℚ) (cs : List ℚ) :
    first_crossing q (cs.map (fun c => x + c)) = first_crossing (q - x) cs := by
  induction cs with
  | nil => rfl
  | cons c cs ih =>
    simp only [List.map_cons, first_crossing]
    by_cases h : q < x + c
    · rw [if_pos h, if_pos (show q - x < c by linarith)]
    · rw [if_neg h, if_neg (show ¬(q - x < c) by intro hc; exact h (by linarith)),
        ih]

/-- Peeling the head below threshold off the kept-length computation. -/
lemma keep_len_cons_le (p q : ℚ) (ps : List ℚ) (hpq : p ≤ q) :
    nucleus_keep_len (p :: ps) q = nucleus_keep_len ps (q - p) + 1 := by
  unfold nucleus_keep_len
  simp only [cumsum, first_crossing]
  rw [if_neg (not_lt.mpr hpq), first_crossing_map_add]
  cases h : first_crossing (q - p) (cumsum ps) with
  | none => simp [h]
  | some i => simp [h]

/-- A head already above threshold keeps exactly one token. -/
lemma keep_len_cons_lt (p q : ℚ) (ps : List ℚ) (hqp : q < p) :
    nucleus_keep_len (p :: ps) q = 1 := by
  unfold nucleus_keep_len
  simp only [cumsum, first_crossing]
  rw [if_pos hqp]

/-- The sampler never keeps more tokens than exist. -/
lemma keep_len_le_length (probs : List ℚ) (q : ℚ) :
    nucleus_keep_len probs q ≤ probs.length := by
  induction probs generalizing q with
  | nil => simp [nucleus_keep_len, cumsum, first_crossing]
  | cons p ps ih =>
    by_cases hqp : q < p
    · rw [keep_len_cons_lt p q ps hqp]
      simp
    · rw [keep_len_cons_le p q ps (not_lt.mp hqp)]
      simp only [List.length_cons]
      exact Nat.add_le_add_right (ih (q - p)) 1

/-- On a non-empty distribution the sampler keeps at least one token. -/
lemma keep_len_pos (probs : List ℚ) (q : ℚ) (h : probs ≠ []) :
    1 ≤ nucleus_keep_len probs q := by
  cases probs with
  | nil => exact absurd rfl h
  | cons p ps =>
    by_cases hqp : q < p
    · rw [keep_len_cons_lt p q ps hqp]
    · rw [keep_len_cons_le p q ps (not_lt.mp hqp)]
      omega

/-- Every shorter non-empty kept candidate fails to cross `top_p`:
minimality of the kept length. -/
lemma take_sum_le_of_lt_keep_len (probs : List ℚ) (q : ℚ) :
    ∀ l, 1 ≤ l → l < nucleus_keep_len probs q → (probs.take l).sum ≤ q := by
  induction probs generalizing q with
  | nil =>
    intro l h1 h2
    simp [nucleus_keep_len, cumsum, first_crossing] at h2
  | cons p ps ih =>
    intro l h1 h2
    by_cases hqp : q < p
    · rw [keep_len_cons_lt p q ps hqp] at h2
      omega
    · rw [keep_len_cons_le p q ps (not_lt.mp hqp)] at h2
      obtain ⟨m, rfl⟩ : ∃ m, l = m + 1 := ⟨l - 1, by omega⟩
      rw [List.take_succ_cons, List.sum_cons]
      by_cases hm : 1 ≤ m
      · have := ih (q - p) m hm (by omega)
        linarith
      · have hm0 : m = 0 := by omega
        subst hm0
        simp only [List.take_zero, List.sum_nil, add_zero]
        exact not_lt.mp hqp

/-- When no cumulative entry crosses `top_p`, no non-empty list head
segment does either. -/
lemma no_crossing_take_sums (probs : List ℚ) (q : ℚ) :
    first_crossing q (cumsum probs) = none →
      ∀ l, 1 ≤ l → l ≤ probs.length → (probs.take l).sum ≤ q := by
  induction probs generalizing q with
  | nil =>
    intro _ l h1 h2
    simp at h2
    omega
  | cons p ps ih =>
    intro hfc l h1 h2
    simp only [cumsum, first_crossing] at hfc
    by_cases hqp : q < p
    · rw [if_pos hqp] at hfc
      exact absurd hfc (by simp)
    · rw [if_neg hqp, first_crossing_map_add] at hfc
      have hfc2 : first_crossing (q - p) (cumsum ps) = none :=
        Option.map_eq_none'.mp hfc
      obtain ⟨m, rfl⟩ : ∃ m, l = m + 1 := ⟨l - 1, by omega⟩
      rw [List.take_succ_cons, List.sum_cons]
      by_cases hm : 1 ≤ m
      · have := ih (q - p) hfc2 m hm (by simpa using h2)
        linarith
      · have hm0 : m = 0 := by omega
        subst hm0
        simp only [List.take_zero, List.sum_nil, add_zero]
        exact not_lt.mp hqp

/-- At a found crossing, the kept head segment does cross `top_p`. -/
lemma crossing_take_sum (probs : List ℚ) (q : ℚ) (i : ℕ) :
    first_crossing q (cumsum probs) = some i →
      q < (probs.take (i + 1)).sum := by
  induction probs generalizing q i with
  | nil => intro h; simp [cumsum, first_crossing] at h
  | cons p ps ih =>
    intro h
    simp only [cumsum, first_crossing] at h
    by_cases hqp : q < p
    · rw [if_pos hqp] at h
      obtain rfl : i = 0 := by
        have := Option.some.inj h
        omega
      rw [List.take_succ_cons, List.take_zero, List.sum_cons, List.sum_nil,
        add_zero]
      exact hqp
    · rw [if_neg hqp, first_crossing_map_add] at h
      obtain ⟨j, hj, rfl⟩ := Option.map_eq_some'.mp h
      have := ih (q - p) j hj
      rw [List.take_succ_cons, List.sum_cons]
      linarith

/-- Every entry of a softmax over positive exponentials of a non-empty
list is positive. -/
lemma softmax_q_pos (e : ℚ → ℚ) (he : ∀ x, 0 < e x) (xs : List ℚ)
    (hxs : xs ≠ []) : ∀ p ∈ softmax_q e xs, 0 < p := by
  intro p hp
  unfold softmax_q at hp
  obtain ⟨y, hy, rfl⟩ := List.mem_map.mp hp
  obtain ⟨x, _, rfl⟩ := List.mem_map.mp hy
  apply div_pos (he x)
  apply List.sum_pos
  · intro z hz
    obtain ⟨u, _, rfl⟩ := List.mem_map.mp hz
    exact he u
  · intro hcon
    exact hxs (List.map_eq_nil_iff.mp hcon)

/-- The head segment the sampler keeps has positive total mass on a
positive distribution. -/
lemma sum_take_pos (probs : List ℚ) (hpos : ∀ x ∈ probs, 0 < x) (L : ℕ)
    (hL1 : 1 ≤ L) (hne : probs ≠ []) : 0 < (probs.take L).sum := by
  apply List.sum_pos
  · intro x hx
    exact hpos x (List.take_subset L probs hx)
  · apply List.length_pos.mp
    rw [List.length_take]
    have := List.length_pos.mpr hne
    omega

/-- C7: for every finite logit vector, temperature `> 0` and `top_p`,
the nucleus sampler is safe: working on any descending reordering
`probs` of the softmax of the scaled logits (all entries positive), it
keeps at least one and at most all tokens, the kept mass is positive so
the renormalization divides by a positive sum and yields a distribution
summing to `1` with positive entries (`torch.multinomial`'s
precondition), the returned token is a valid index into the logits, the
kept head segment is the smallest one whose cumulative probability
exceeds `top_p` when one exists, and when no segment crosses, the whole
sorted distribution is kept. -/
theorem nucleus_sample_spec (e : ℚ → ℚ) (logits probs : List ℚ)
    (idx : List ℕ) (t q : ℚ) (choice : ℕ)
    (hlog : logits ≠ [])
    (_ht : 0 < t)
    (he : ∀ x, 0 < e x)
    (hperm : (softmax_q e (nucleus_scaled_logits logits t)).Perm probs)
    (hlen : idx.length = probs.length)
    (hidx : ∀ j ∈ idx, j < logits.length)
    (hchoice : choice < nucleus_keep_len probs q) :
    1 ≤ nucleus_keep_len probs q ∧
    nucleus_keep_len probs q ≤ probs.length ∧
    0 < (probs.take (nucleus_keep_len probs q)).sum ∧
    (∀ x ∈ renormalize (probs.take (nucleus_keep_len probs q)), 0 < x) ∧
    (renormalize (probs.take (nucleus_keep_len probs q))).sum = 1 ∧
    (∃ tok, nucleus_sample probs idx q choice = some tok ∧
      tok < logits.length) ∧
    ((∃ l, 1 ≤ l ∧ l ≤ probs.length ∧ q < (probs.take l).sum) →
      q < (probs.take (nucleus_keep_len probs q)).sum ∧
      ∀ l, 1 ≤ l → l < nucleus_keep_len probs q → (probs.take l).sum ≤ q) ∧
    ((∀ l, 1 ≤ l → l ≤ probs.length → (probs.take l).sum ≤ q) →
      nucleus_keep_len probs q = probs.length) := by
  have hsne : nucleus_scaled_logits logits t ≠ [] := by
    unfold nucleus_scaled_logits
    intro hcon
    exact hlog (List.map_eq_nil_iff.mp hcon)
  have hprobs_ne : probs ≠ [] := by
    intro hcon
    have hlen2 := hperm.length_eq
    rw [hcon] at hlen2
    simp only [List.length_nil, softmax_q, List.length_map] at hlen2
    exact hsne (List.length_eq_zero.mp hlen2)
  have hpos : ∀ x ∈ probs, 0 < x := fun x hx =>
    softmax_q_pos e he (nucleus_scaled_logits logits t) hsne x
      (hperm.mem_iff.mpr hx)
  have hL1 : 1 ≤ nucleus_keep_len probs q := keep_len_pos probs q hprobs_ne
  have hLle : nucleus_keep_len probs q ≤ probs.length :=
    keep_len_le_length probs q
  have hsumpos : 0 < (probs.take (nucleus_keep_len probs q)).sum :=
    sum_take_pos probs hpos (nucleus_keep_len probs q) hL1 hprobs_ne
  have hrpos : ∀ x ∈ renormalize (probs.take (nucleus_keep_len probs q)), 0 < x := by
    intro x hx
    unfold renormalize at hx
    obtain ⟨y, hy, rfl⟩ := List.mem_map.mp hx
    exact div_pos (hpos y (List.take_subset _ probs hy)) hsumpos
  have hrsum : (renormalize (probs.take (nucleus_keep_len probs q))).sum = 1 := by
    unfold renormalize
    rw [sum_map_div, div_self (ne_of_gt hsumpos)]
  have htok : ∃ tok, nucleus_sample probs idx q choice = some tok ∧
      tok < logits.length := by
    have hlt : choice < (idx.take (nucleus_keep_len probs q)).length := by
      rw [List.length_take]
      omega
    refine ⟨(idx.take (nucleus_keep_len probs q)).get ⟨choice, hlt⟩,
      List.get?_eq_get hlt, ?_⟩
    apply hidx
    exact List.take_subset _ idx
      (List.get_mem (idx.take (nucleus_keep_len probs q)) choice hlt)
  have hcross : (∃ l, 1 ≤ l ∧ l ≤ probs.length ∧ q < (probs.take l).sum) →
      q < (probs.take (nucleus_keep_len probs q)).sum ∧
      ∀ l, 1 ≤ l → l < nucleus_keep_len probs q → (probs.take l).sum ≤ q := by
    intro hex
    refine ⟨?_, take_sum_le_of_lt_keep_len probs q⟩
    cases hfc : first_crossing q (cumsum probs) with
    | some i =>
      have hkl : nucleus_keep_len probs q = i + 1 := by
        unfold nucleus_keep_len
        rw [hfc]
      rw [hkl]
      exact crossing_take_sum probs q i hfc
    | none =>
      obtain ⟨l, hl1, hl2, hl3⟩ := hex
      exact absurd hl3 (not_lt.mpr (no_crossing_take_sums probs q hfc l hl1 hl2))
  have hfall : (∀ l, 1 ≤ l → l ≤ probs.length → (probs.take l).sum ≤ q) →
      nucleus_keep_len probs q = probs.length := by
    intro hall
    cases hfc : first_crossing q (cumsum probs) with
    | some i =>
      have hkl : nucleus_keep_len probs q = i + 1 := by
        unfold nucleus_keep_len
        rw [hfc]
      have h1 : q < (probs.take (i + 1)).sum := crossing_take_sum probs q i hfc
      have h2 : (probs.take (i + 1)).sum ≤ q :=
        hall (i + 1) (by omega) (by omega)
      linarith
    | none =>
      unfold nucleus_keep_len
      rw [hfc]
  exact ⟨hL1, hLle, hsumpos, hrpos, hrsum, htok, hcross, hfall⟩

/-- Closed instantiation of `nucleus_sample_spec`: a flat two-token
distribution at `top_p = 3/4` keeps both tokens and the sampler returns
a valid token id. -/
theorem nucleus_sample_spec_witness :
    ([0, 0] : List ℚ) ≠ [] ∧ (0 : ℚ) < 1 ∧
    (∃ tok, nucleus_sample [1/2, 1/2] [0, 1] (3/4) 0 = some tok ∧ tok < 2) := by
  have hsm : softmax_q (fun _ => (1 : ℚ)) (nucleus_scaled_logits [0, 0] 1)
      = [1/2, 1/2] := by
    norm_num [softmax_q, nucleus_scaled_logits]
  have hperm : (softmax_q (fun _ => (1 : ℚ))
      (nucleus_scaled_logits [0, 0] 1)).Perm ([1/2, 1/2] : List ℚ) := by
    rw [hsm]
  have hkl : nucleus_keep_len ([1/2, 1/2] : List ℚ) (3/4) = 2 := by
    norm_num [nucleus_keep_len, cumsum, first_crossing]
  refine ⟨by simp, by norm_num, ?_⟩
  have h := nucleus_sample_spec (fun _ => 1) [0, 0] [1/2, 1/2] [0, 1] 1 (3/4) 0
    (by simp) (by norm_num) (fun x => by norm_num) hperm rfl
    (by decide) (by rw [hkl]; omega)
  exact h.2.2.2.2.2.1

end SledDecode
